import Mathlib

/-!
Verification of the event-stream ingestion and cancellable request-lifecycle
subsystem of the Xenobot frontend IPC shim
(src/crates/web/frontend/public/shim.js).

The shallow embedding below translates, from the source:
  - the record framer and its incremental text decoding
    (consumeSseResponse, lines 758-812),
  - the record decoder (emitBlock, lines 771-795),
  - key-casing normalization (snakeToCamel / toCamelDeep, lines 70-86),
  - a JSON value model and a parser for the JSON.parse platform primitive,
  - the agent-run aggregation and request lifecycle
    (agentApi.runStream / agentApi.abort, lines 1150-1253),
  - the chat-stream wrapper (llmApi.chatStream, lines 869-887).

Machine text is modelled as List Char, wire bytes as List Nat, and the
stream-mode TextDecoder as the WHATWG incremental UTF-8 decoder state
machine.  Fallible paths are Option / Except valued.
-/

/-! ## Incremental UTF-8 decoding (the TextDecoder platform primitive,
used by consumeSseResponse with the stream flag set). -/

/-- State of the WHATWG incremental UTF-8 decoder: the partially assembled
code point, how many continuation bytes are still needed and already seen,
and the admissible range for the next continuation byte. -/
structure Utf8State where
  codePoint : Nat
  bytesNeeded : Nat
  bytesSeen : Nat
  lowerBoundary : Nat
  upperBoundary : Nat
deriving Repr, DecidableEq

def Utf8State.start : Utf8State :=
  ⟨0, 0, 0, 0x80, 0xBF⟩

/-- The replacement character U+FFFD emitted for invalid input in
non-fatal mode. -/
def replacementChar : Char := Char.ofNat 0xFFFD

/-- Handle one byte from the initial decoder state (bytesNeeded = 0). -/
def utf8Begin (b : Nat) : Utf8State × List Char :=
  if b ≤ 0x7F then (Utf8State.start, [Char.ofNat b])
  else if 0xC2 ≤ b ∧ b ≤ 0xDF then
    ({ Utf8State.start with bytesNeeded := 1, codePoint := b % 32 }, [])
  else if 0xE0 ≤ b ∧ b ≤ 0xEF then
    ({ codePoint := b % 16, bytesNeeded := 2, bytesSeen := 0,
       lowerBoundary := if b = 0xE0 then 0xA0 else 0x80,
       upperBoundary := if b = 0xED then 0x9F else 0xBF }, [])
  else if 0xF0 ≤ b ∧ b ≤ 0xF4 then
    ({ codePoint := b % 8, bytesNeeded := 3, bytesSeen := 0,
       lowerBoundary := if b = 0xF0 then 0x90 else 0x80,
       upperBoundary := if b = 0xF4 then 0x8F else 0xBF }, [])
  else (Utf8State.start, [replacementChar])

/-- Handle one byte in an arbitrary decoder state.  A continuation byte
outside the admissible range emits U+FFFD and reprocesses the byte from the
initial state, exactly as the WHATWG algorithm prepends it to the stream. -/
def utf8Feed (st : Utf8State) (b : Nat) : Utf8State × List Char :=
  if st.bytesNeeded = 0 then utf8Begin b
  else if b < st.lowerBoundary ∨ st.upperBoundary < b then
    let p := utf8Begin b
    (p.1, replacementChar :: p.2)
  else
    let cp := st.codePoint * 64 + b % 64
    if st.bytesSeen + 1 = st.bytesNeeded then (Utf8State.start, [Char.ofNat cp])
    else ({ codePoint := cp, bytesNeeded := st.bytesNeeded,
            bytesSeen := st.bytesSeen + 1,
            lowerBoundary := 0x80, upperBoundary := 0xBF }, [])

/-- Decode a chunk of bytes, threading the decoder state. -/
def utf8FeedChunk (st : Utf8State) (bs : List Nat) : Utf8State × List Char :=
  match bs with
  | [] => (st, [])
  | b :: rest =>
    let p := utf8Feed st b
    let q := utf8FeedChunk p.1 rest
    (q.1, p.2 ++ q.2)

/-- Flushing the decoder at end of stream (decoder.decode() with no
argument): a pending incomplete sequence yields one U+FFFD. -/
def utf8Flush (st : Utf8State) : List Char :=
  if st.bytesNeeded = 0 then [] else [replacementChar]

/-! ## Text utilities used by the framing loop. -/

/-- One pass of replace(/\r\n/g, newline): every CR-LF pair becomes a
single LF.  In the source this is applied to each newly decoded chunk of
text separately, before it is appended to the accumulation buffer. -/
def crlfNormalize : List Char → List Char
  | [] => []
  | [c] => [c]
  | c :: c2 :: rest =>
    if c = '\r' ∧ c2 = '\n' then '\n' :: crlfNormalize rest
    else c :: crlfNormalize (c2 :: rest)

/-- The JavaScript whitespace set recognised by trim and trimStart:
WhiteSpace plus LineTerminator code points. -/
def isJsWhitespace (c : Char) : Bool :=
  c.toNat = 0x9 || c.toNat = 0xA || c.toNat = 0xB || c.toNat = 0xC ||
  c.toNat = 0xD || c.toNat = 0x20 || c.toNat = 0xA0 || c.toNat = 0x1680 ||
  (0x2000 ≤ c.toNat && c.toNat ≤ 0x200A) || c.toNat = 0x2028 ||
  c.toNat = 0x2029 || c.toNat = 0x202F || c.toNat = 0x205F ||
  c.toNat = 0x3000 || c.toNat = 0xFEFF

/-- String.prototype.trimStart. -/
def jsTrimStart (s : List Char) : List Char :=
  s.dropWhile isJsWhitespace

/-- String.prototype.trim. -/
def jsTrim (s : List Char) : List Char :=
  ((s.dropWhile isJsWhitespace).reverse.dropWhile isJsWhitespace).reverse

/-- String.prototype.split with a one-newline separator, as used by
emitBlock on a record block. -/
def splitOnNl : List Char → List (List Char)
  | [] => [[]]
  | c :: rest =>
    if c = '\n' then [] :: splitOnNl rest
    else
      match splitOnNl rest with
      | l :: ls => (c :: l) :: ls
      | [] => [[c]]

/-- Array.prototype.join with a one-newline separator. -/
def joinNl : List (List Char) → List Char
  | [] => []
  | [l] => l
  | l :: ls => l ++ '\n' :: joinNl ls

/-! ## The framing loop of consumeSseResponse (lines 797-811).

The source repeatedly looks up indexOf of the two-newline delimiter in the
accumulation buffer, cuts the block before it out (trimmed), and keeps the
remainder; scanBlocks is that loop as a left-to-right scan.  It returns the
untrimmed blocks in order together with the residual buffer. -/

def scanBlocks : List Char → List (List Char) × List Char
  | [] => ([], [])
  | [c] => ([], [c])
  | c :: c2 :: rest =>
    if c = '\n' ∧ c2 = '\n' then
      let p := scanBlocks rest
      ([] :: p.1, p.2)
    else
      match scanBlocks (c2 :: rest) with
      | (b :: bs, r) => ((c :: b) :: bs, r)
      | ([], r) => ([], c :: r)

/-- State carried by the read loop across chunks: the incremental text
decoder state and the accumulation buffer. -/
structure FramerState where
  dec : Utf8State
  buffer : List Char
deriving Repr, DecidableEq

def FramerState.start : FramerState :=
  ⟨Utf8State.start, []⟩

/-- One iteration of the read loop on one byte chunk: decode it with the
streaming decoder, normalize CR-LF in the newly decoded text only, append
to the buffer, and cut out every complete record (each trimmed, as the
source trims each block when it is cut out). -/
def feedChunk (st : FramerState) (bytes : List Nat) : FramerState × List (List Char) :=
  let d := utf8FeedChunk st.dec bytes
  let t := crlfNormalize d.2
  let p := scanBlocks (st.buffer ++ t)
  (⟨d.1, p.2⟩, p.1.map jsTrim)

/-- Feed a list of chunks through the loop, collecting the blocks handed to
emitBlock in order. -/
def feedChunks (st : FramerState) : List (List Nat) → FramerState × List (List Char)
  | [] => (st, [])
  | c :: cs =>
    let p := feedChunk st c
    let q := feedChunks p.1 cs
    (q.1, p.2 ++ q.2)

/-- The complete framing pass of consumeSseResponse over a chunked body:
run the loop, then flush the text decoder, normalize, append, and hand the
trimmed remaining buffer to emitBlock as one final block (lines 809-810). -/
def frameChunks (chunks : List (List Nat)) : List (List Char) :=
  let p := feedChunks FramerState.start chunks
  let finalText := crlfNormalize (utf8Flush p.1.dec)
  p.2 ++ [jsTrim (p.1.buffer ++ finalText)]

/-- Bytes of an ASCII string, for concrete wire inputs. -/
def asciiBytes (s : String) : List Nat :=
  s.data.map Char.toNat

example : frameChunks [asciiBytes "data: a\n\ndata: b"] =
    ["data: a".data, "data: b".data] := rfl

example : frameChunks [asciiBytes "data: a\n", asciiBytes "\ndata: b\n\n"] =
    ["data: a".data, "data: b".data, []] := rfl

/-! ## JSON values.

A mutual spine is used instead of nested List so that all recursion below
is structural and concrete values evaluate inside the kernel. -/

mutual
inductive Json where
  | null
  | bool (b : Bool)
  | num (mantissa : Int) (exp10 : Int)
  | str (s : String)
  | arr (xs : JsonList)
  | obj (fields : JsonFields)
deriving Repr, DecidableEq
inductive JsonList where
  | nil
  | cons (hd : Json) (tl : JsonList)
deriving Repr, DecidableEq
inductive JsonFields where
  | nil
  | cons (key : String) (val : Json) (tl : JsonFields)
deriving Repr, DecidableEq
end

/-- Assoc lookup among an object's fields (first match). -/
def JsonFields.lookup : JsonFields → String → Option Json
  | .nil, _ => none
  | .cons k v rest, key => if k = key then some v else rest.lookup key

/-- Object field insertion with JavaScript assignment semantics: an
existing key keeps its position and its value is overwritten, a new key is
appended. -/
def JsonFields.setField : JsonFields → String → Json → JsonFields
  | .nil, key, v => .cons key v .nil
  | .cons k w rest, key, v =>
    if k = key then .cons k v rest else .cons k w (rest.setField key v)

/-! ## JSON numbers are kept syntactically as mantissa times ten to the
exp10, so no floating-point arithmetic is modelled. -/

/-- JavaScript truthiness of a value. -/
def Json.truthy : Json → Bool
  | .null => false
  | .bool b => b
  | .num m _ => m ≠ 0
  | .str s => s ≠ ""
  | .arr _ => true
  | .obj _ => true

/-! ## JSON.parse (platform primitive used by emitBlock inside try/catch).

A fuel-indexed recursive-descent parser over the JSON grammar; the fuel is
the input length, which bounds the recursion depth.  Whitespace is the
JSON set: space, tab, LF, CR. -/

def isJsonWs (c : Char) : Bool :=
  c = ' ' || c = '\t' || c = '\n' || c = '\r'

def skipJsonWs (s : List Char) : List Char :=
  s.dropWhile isJsonWs

def isDigit (c : Char) : Bool :=
  '0' ≤ c && c ≤ '9'

def digitVal (c : Char) : Nat :=
  c.toNat - '0'.toNat

def isHexDigit (c : Char) : Bool :=
  isDigit c || ('a' ≤ c && c ≤ 'f') || ('A' ≤ c && c ≤ 'F')

def hexVal (c : Char) : Nat :=
  if isDigit c then digitVal c
  else if 'a' ≤ c && c ≤ 'f' then c.toNat - 'a'.toNat + 10
  else c.toNat - 'A'.toNat + 10

/-- Parse a run of decimal digits, returning their value, count, and the
rest of the input. -/
def parseDigits : List Char → Nat → Nat → Nat × Nat × List Char
  | c :: rest, acc, n =>
    if isDigit c then parseDigits rest (acc * 10 + digitVal c) (n + 1)
    else (acc, n, c :: rest)
  | [], acc, n => (acc, n, [])

/-- Parse the body of a JSON string literal after the opening quote,
handling the escape sequences of the grammar.  Unpaired \uXXXX surrogate
halves are not representable as scalar values; Char.ofNat maps them to a
default character, a corner no claim touches. -/
def parseStringBody : Nat → List Char → Option (List Char × List Char)
  | 0, _ => none
  | _ + 1, [] => none
  | fuel + 1, c :: rest =>
    if c = '"' then some ([], rest)
    else if c = '\\' then
      match rest with
      | [] => none
      | e :: rest2 =>
        let decoded : Option (Char × List Char) :=
          if e = '"' then some ('"', rest2)
          else if e = '\\' then some ('\\', rest2)
          else if e = '/' then some ('/', rest2)
          else if e = 'b' then some (Char.ofNat 8, rest2)
          else if e = 'f' then some (Char.ofNat 12, rest2)
          else if e = 'n' then some ('\n', rest2)
          else if e = 'r' then some ('\r', rest2)
          else if e = 't' then some ('\t', rest2)
          else if e = 'u' then
            match rest2 with
            | h1 :: h2 :: h3 :: h4 :: rest3 =>
              if isHexDigit h1 && isHexDigit h2 && isHexDigit h3 && isHexDigit h4 then
                some (Char.ofNat (((hexVal h1 * 16 + hexVal h2) * 16 + hexVal h3) * 16 + hexVal h4), rest3)
              else none
            | _ => none
          else none
        match decoded with
        | some (ch, rest3) =>
          match parseStringBody fuel rest3 with
          | some (cs, rest4) => some (ch :: cs, rest4)
          | none => none
        | none => none
    else if c.toNat < 0x20 then none
    else
      match parseStringBody fuel rest with
      | some (cs, rest2) => some (c :: cs, rest2)
      | none => none

/-- Parse a JSON number at the head of the input: optional minus, integer
part, optional fraction, optional exponent, producing mantissa and
decimal exponent. -/
def parseNumber (s : List Char) : Option (Json × List Char) :=
  let sign : Int × List Char :=
    match s with
    | '-' :: rest => (-1, rest)
    | _ => (1, s)
  match sign.2 with
  | c :: _ =>
    if !isDigit c then none
    else
      let ip := parseDigits sign.2 0 0
      -- the JSON grammar forbids leading zeros; JSON.parse rejects them
      if 1 < ip.2.1 ∧ sign.2.head? = some '0' then none
      else
        match ip.2.2 with
        | '.' :: d :: rest =>
          if isDigit d then
            let fr := parseDigits (d :: rest) 0 0
            parseNumberExp sign.1 (ip.1 * 10 ^ fr.2.1 + fr.1) (-(fr.2.1 : Int)) fr.2.2
          else none
        | '.' :: [] => none
        | other => parseNumberExp sign.1 ip.1 0 other
  | [] => none
where
  parseNumberExp (sg : Int) (mant : Nat) (e0 : Int) (s : List Char) : Option (Json × List Char) :=
    match s with
    | 'e' :: rest => parseExpTail sg mant e0 rest
    | 'E' :: rest => parseExpTail sg mant e0 rest
    | _ => some (.num (sg * mant) e0, s)
  parseExpTail (sg : Int) (mant : Nat) (e0 : Int) (s : List Char) : Option (Json × List Char) :=
    let esign : Int × List Char :=
      match s with
      | '+' :: rest => (1, rest)
      | '-' :: rest => (-1, rest)
      | _ => (1, s)
    match esign.2 with
    | c :: _ =>
      if !isDigit c then none
      else
        let ed := parseDigits esign.2 0 0
        some (.num (sg * mant) (e0 + esign.1 * ed.1), ed.2.2)
    | [] => none

/-- The opening brace character. -/
def lbraceChar : Char := Char.ofNat 123

/-- The closing brace character. -/
def rbraceChar : Char := Char.ofNat 125

/-! The value parser.  The fuel only bounds recursion depth; every mutual
call consumes at least one input character, so the budget given by
jsonParse below never runs out on an accepted input. -/

mutual
def parseValue : Nat → List Char → Option (Json × List Char)
  | 0, _ => none
  | fuel + 1, s =>
    match s with
    | '"' :: rest =>
      match parseStringBody (rest.length + 1) rest with
      | some (cs, rest2) => some (.str (String.mk cs), rest2)
      | none => none
    | '[' :: rest =>
      match skipJsonWs rest with
      | ']' :: rest2 => some (.arr .nil, rest2)
      | s2 =>
        match parseArrayTail fuel s2 with
        | some (xs, rest2) => some (.arr xs, rest2)
        | none => none
    | 't' :: 'r' :: 'u' :: 'e' :: rest => some (.bool true, rest)
    | 'f' :: 'a' :: 'l' :: 's' :: 'e' :: rest => some (.bool false, rest)
    | 'n' :: 'u' :: 'l' :: 'l' :: rest => some (.null, rest)
    | c :: rest =>
      if c = lbraceChar then
        match skipJsonWs rest with
        | c2 :: rest2 =>
          if c2 = rbraceChar then some (.obj .nil, rest2)
          else
            match parseObjectTail fuel .nil (c2 :: rest2) with
            | some (fs, rest3) => some (.obj fs, rest3)
            | none => none
        | [] => none
      else parseNumber (c :: rest)
    | [] => none

def parseArrayTail : Nat → List Char → Option (JsonList × List Char)
  | 0, _ => none
  | fuel + 1, s =>
    match parseValue fuel s with
    | some (v, rest) =>
      match skipJsonWs rest with
      | ',' :: rest2 =>
        match parseArrayTail fuel (skipJsonWs rest2) with
        | some (xs, rest3) => some (.cons v xs, rest3)
        | none => none
      | ']' :: rest2 => some (.cons v .nil, rest2)
      | _ => none
    | none => none

def parseObjectTail : Nat → JsonFields → List Char → Option (JsonFields × List Char)
  | 0, _, _ => none
  | fuel + 1, acc, s =>
    match s with
    | '"' :: rest =>
      match parseStringBody (rest.length + 1) rest with
      | some (kcs, rest2) =>
        match skipJsonWs rest2 with
        | ':' :: rest3 =>
          match parseValue fuel (skipJsonWs rest3) with
          | some (v, rest4) =>
            let acc2 := acc.setField (String.mk kcs) v
            match skipJsonWs rest4 with
            | ',' :: rest5 => parseObjectTail fuel acc2 (skipJsonWs rest5)
            | c :: rest5 => if c = rbraceChar then some (acc2, rest5) else none
            | [] => none
          | none => none
        | _ => none
      | none => none
    | _ => none
end

/-- JSON.parse: parse one element surrounded by whitespace, requiring all
input to be consumed; none models a thrown SyntaxError. -/
def jsonParse (s : List Char) : Option Json :=
  match parseValue (2 * s.length + 2) (skipJsonWs s) with
  | some (v, rest) => if skipJsonWs rest = [] then some v else none
  | none => none

/-! ## Key-casing normalization (shim.js lines 70-86). -/

/-- snakeToCamel (line 70): replace(/_([a-z])/g, ...) uppercases the letter
after each underscore-lowercase pair and drops the underscore; matches are
found left to right and do not overlap. -/
def snakeToCamel : List Char → List Char
  | [] => []
  | c :: rest =>
    if c = '_' then
      match rest with
      | c2 :: rest2 =>
        if 'a' ≤ c2 ∧ c2 ≤ 'z' then c2.toUpper :: snakeToCamel rest2
        else '_' :: snakeToCamel (c2 :: rest2)
      | [] => ['_']
    else c :: snakeToCamel rest

def snakeToCamelStr (s : String) : String :=
  String.mk (snakeToCamel s.data)

/-! toCamelDeep (line 74): map every object key through snakeToCamel at
every nesting depth, descending through arrays and object values;
non-container values are returned unchanged.  Keys are written with
JavaScript assignment semantics, so two keys normalizing to the same name
collapse to the later value at the position of the first. -/

mutual
def toCamelDeep : Json → Json
  | .null => .null
  | .bool b => .bool b
  | .num m e => .num m e
  | .str s => .str s
  | .arr xs => .arr (toCamelList xs)
  | .obj fs => .obj (toCamelFields fs .nil)
def toCamelList : JsonList → JsonList
  | .nil => .nil
  | .cons x xs => .cons (toCamelDeep x) (toCamelList xs)
def toCamelFields : JsonFields → JsonFields → JsonFields
  | .nil, acc => acc
  | .cons k v fs, acc => toCamelFields fs (acc.setField (snakeToCamelStr k) (toCamelDeep v))
end

/-! ## The record decoder, emitBlock (lines 771-795), as the pure function
from one block to at most one decoded event.  The push onto the returned
list and the observer call are handled by the dispatcher model below. -/

/-- The payload text of a block: keep the lines starting with the literal
prefix, drop the five prefix characters and leading whitespace from each,
and join with newline (lines 773-777). -/
def dataTextOf (block : List Char) : List Char :=
  joinNl (((splitOnNl block).filter
    (fun l => l.take 5 = "data:".data)).map
    (fun l => jsTrimStart (l.drop 5)))

/-- Decode one block: an empty block or an empty payload yields no event;
a payload JSON.parse failure falls back to a one-field object carrying the
raw payload; the result is key-normalized (lines 780-787). -/
def decodeRecord (block : List Char) : Option Json :=
  if block = [] then none
  else
    let dataText := dataTextOf block
    if dataText = [] then none
    else
      let parsed :=
        match jsonParse dataText with
        | some v => v
        | none => .obj (.cons "content" (.str (String.mk dataText)) .nil)
      some (toCamelDeep parsed)

/-- All decoded events of a chunked body, in order: the framing pass
followed by the per-block decoder.  This list is both what
consumeSseResponse returns and, element for element in the same order,
what it delivers to the observer callback. -/
def sseEvents (chunks : List (List Nat)) : List Json :=
  (frameChunks chunks).filterMap decodeRecord

example : jsonParse "3".data = some (.num 3 0) := rfl
example : jsonParse "-1.5e2".data = some (.num (-15) 1) := rfl
example : jsonParse "[true, null]".data = some (.arr (.cons (.bool true) (.cons .null .nil))) := rfl
example : jsonParse "hi".data = none := rfl
example : jsonParse "\x7b\"a\":1\x7d".data = some (.obj (.cons "a" (.num 1 0) .nil)) := rfl
example : jsonParse "\x7b \"a\" : [1, \"x\"] \x7d".data =
    some (.obj (.cons "a" (.arr (.cons (.num 1 0) (.cons (.str "x") .nil))) .nil)) := rfl
example : decodeRecord "data: \x7b\"a\":1\x7d".data = some (.obj (.cons "a" (.num 1 0) .nil)) := rfl
example : decodeRecord "data: hi".data = some (.obj (.cons "content" (.str "hi") .nil)) := rfl
example : decodeRecord "event: x".data = none := rfl
example : sseEvents [asciiBytes "data: \x7b\"tool_name\":\"s\"\x7d\n\n"] =
    [.obj (.cons "toolName" (.str "s") .nil)] := rfl

/-! ## JavaScript value helpers for the aggregation code. -/

/-- Property access on a non-null value: a field of an object, undefined
(none) otherwise.  Access on null throws a TypeError instead; the call
sites below match on null first and model the throw with Except. -/
def Json.prop : Json → String → Option Json
  | .obj fs, k => fs.lookup k
  | _, _ => none

/-- The TypeError raised by property access on null.  The exact message
text is engine dependent; only its non-AbortError classification matters
to the code. -/
def nullAccessError : String := "TypeError: Cannot read properties of null"

def truthyOpt : Option Json → Bool
  | some v => v.truthy
  | none => false

/-- Decimal rendering of the syntactic number representation; stands in
for Number.prototype.toString, which no claim exercises. -/
def jsNumToString (m : Int) (e : Int) : String :=
  if e = 0 then toString m else toString m ++ "e" ++ toString e

/-! String coercion applied by += and by Array.prototype.join: strings
pass through, arrays join their elements with commas rendering null as
empty, plain objects render as the generic object tag. -/

mutual
def jsToString : Json → String
  | .null => "null"
  | .bool b => if b then "true" else "false"
  | .num m e => jsNumToString m e
  | .str s => s
  | .arr xs => jsToStringItems xs
  | .obj _ => "[object Object]"
def jsToStringItems : JsonList → String
  | .nil => ""
  | .cons x .nil => (match x with | .null => "" | v => jsToString v)
  | .cons x xs => (match x with | .null => "" | v => jsToString v) ++ "," ++ jsToStringItems xs
end

/-- Set.prototype.add with Array.from order: insertion-ordered, duplicates
ignored.  Structural equality of values stands in for the SameValueZero
keying of the platform Set; the tool names the code inserts are strings,
where the two coincide. -/
def setAdd (s : List Json) (v : Json) : List Json :=
  if v ∈ s then s else s ++ [v]

/-! ## The agent-run aggregation of agentApi.runStream (lines 1188-1242). -/

/-- Aggregation state closed over by the runStream chunk callback:
the tool-name set, the concatenated content, and the last captured usage
value (null until a done event carries one). -/
structure AggState where
  toolsUsed : List Json
  content : String
  usage : Option Json
deriving Repr, DecidableEq

def AggState.start : AggState := ⟨[], "", none⟩

/-- The chunk callback of runStream (lines 1196-1209): concatenate content
of content events, add tool names of tool-start events, capture usage of
done events.  On a null chunk the very first property access raises a
TypeError, which the dispatcher catches at the observer call site
(lines 789-793), so the state is unchanged. -/
def agentOnChunk (st : AggState) (c : Json) : AggState :=
  match c with
  | .null => st
  | _ =>
    let st1 :=
      if c.prop "type" = some (.str "content") ∧ truthyOpt (c.prop "content") then
        { st with content := st.content ++ jsToString ((c.prop "content").getD .null) }
      else st
    let st2 :=
      if c.prop "type" = some (.str "tool_start") ∧ truthyOpt (c.prop "toolName") then
        { st1 with toolsUsed := setAdd st1.toolsUsed ((c.prop "toolName").getD .null) }
      else st1
    if c.prop "type" = some (.str "done") ∧ truthyOpt (c.prop "usage") then
      { st2 with usage := c.prop "usage" }
    else st2

/-- The re-scan loop over the completed chunk list (lines 1213-1217),
continuing from a given tool set.  Property access on a null chunk raises
here with no handler, so the whole aggregation fails. -/
def rescanToolsFrom (tools : List Json) : List Json → Except String (List Json)
  | [] => .ok tools
  | .null :: _ => .error nullAccessError
  | c :: rest =>
    rescanToolsFrom
      (if c.prop "type" = some (.str "tool_start") ∧ truthyOpt (c.prop "toolName") then
        setAdd tools ((c.prop "toolName").getD .null)
      else tools) rest

/-- The final value built at line 1219: content, the tool set as an array,
its size as the round count, and the captured usage. -/
structure AgentRunValue where
  content : String
  toolsUsed : List Json
  toolRounds : Nat
  totalUsage : Option Json
deriving Repr, DecidableEq

/-- Settlement value of the runStream promise. -/
structure AgentResult where
  success : Bool
  result : Option AgentRunValue
  error : Option String
deriving Repr, DecidableEq

/-- A JavaScript error as classified by the catch clause: its name and its
message. -/
structure JsError where
  name : String
  message : String
deriving Repr, DecidableEq

/-- Aggregate a completed chunk list: the live fold over the delivered
events followed by the re-scan into the same set. -/
def aggregateAgentRun (chunks : List Json) : Except String AgentRunValue :=
  let st := chunks.foldl agentOnChunk AggState.start
  match rescanToolsFrom st.toolsUsed chunks with
  | .ok tools => .ok ⟨st.content, tools, tools.length, st.usage⟩
  | .error e => .error e

/-- Settle the runStream promise from the transport outcome
(lines 1219-1238): on success the aggregate, on an AbortError the aborted
result, on any other error its message. -/
def runStreamSettle (transport : Except JsError (List Json)) : AgentResult :=
  match transport with
  | .ok chunks =>
    match aggregateAgentRun chunks with
    | .ok v => ⟨true, some v, none⟩
    | .error m => ⟨false, none, some m⟩
  | .error e =>
    if e.name = "AbortError" then ⟨false, none, some "aborted"⟩
    else ⟨false, none, some e.message⟩

/-! ## The request registry (activeAgentRequests, line 849) and the
lifecycle of one request.  The registry is modelled by the list of
registered request identifiers; each identifier stands for its
cancellation handle. -/

/-- Map.prototype.set: a fresh key is appended. -/
def registrySet (reg : List String) (id : String) : List String :=
  if id ∈ reg then reg else reg ++ [id]

instance {α β : Type} [DecidableEq α] [DecidableEq β] : DecidableEq (Except α β) := fun x y =>
  match x, y with
  | .error a, .error b =>
    if h : a = b then isTrue (by rw [h]) else isFalse (by intro g; cases g; exact h rfl)
  | .ok a, .ok b =>
    if h : a = b then isTrue (by rw [h]) else isFalse (by intro g; cases g; exact h rfl)
  | .error _, .ok _ => isFalse (by intro g; cases g)
  | .ok _, .error _ => isFalse (by intro g; cases g)

/-- Outcome of one agentApi.abort call (lines 1246-1253): the registry
afterwards, the handles on which cancellation was triggered, and the
settlement of the promise the call returns, which is exactly the
settlement of the out-of-band httpRequest POST to the abort endpoint. -/
structure AbortOutcome where
  registry : List String
  fired : List String
  promise : Except String Json
deriving Repr, DecidableEq

/-- agentApi.abort: when the id is registered, trigger its handle and
delete the entry; in every case issue the remote abort notification and
return its promise. -/
def abortOp (reg : List String) (id : String) (remote : Except String Json) : AbortOutcome :=
  if id ∈ reg then ⟨reg.erase id, [id], remote⟩
  else ⟨reg, [], remote⟩

/-- Outcome of one full runStream lifecycle: the registry after
settlement, the settled result, and how many registry deletions actually
removed the entry. -/
structure LifecycleOutcome where
  registry : List String
  result : AgentResult
  removals : Nat
deriving Repr, DecidableEq

/-- One request from start to settlement (lines 1150-1244): insert the id;
if abort arrives while the request is in flight, the abort handler deletes
the entry and fires the handle, whose signal makes the pending fetch
reject with an AbortError (the cancellation contract of the platform
fetch); otherwise the transport outcome stands; the result is settled and
the finally clause (line 1240) deletes the entry again, a no-op when the
abort handler already did. -/
def runStreamLifecycle (reg : List String) (id : String) (abortMidFlight : Bool)
    (transport : Except JsError (List Json)) : LifecycleOutcome :=
  let reg1 := registrySet reg id
  let reg2 := if abortMidFlight then reg1.erase id else reg1
  let abortRemovals := if abortMidFlight ∧ id ∈ reg1 then 1 else 0
  let outcome := if abortMidFlight then .error ⟨"AbortError", "The operation was aborted"⟩ else transport
  let finallyRemovals := if id ∈ reg2 then 1 else 0
  ⟨reg2.erase id, runStreamSettle outcome, abortRemovals + finallyRemovals⟩

/-! ## consumeSseResponse over a whole response (lines 758-812) and
llmApi.chatStream (lines 869-887). -/

/-- An HTTP response at the boundary consumeSseResponse sees: the ok flag,
status data for the error text, and the body as a list of byte chunks when
present and incrementally readable; none models both an absent body and a
body without getReader. -/
structure SseResponse where
  ok : Bool
  status : Nat
  statusText : String
  body : Option (List (List Nat))
deriving Repr, DecidableEq

/-- consumeSseResponse: a non-ok response throws; a missing or unreadable
body yields the empty list with no observer call; otherwise the framing
and decoding pass runs, returning the decoded events, each of which was
also delivered to the observer in the same order. -/
def consumeSse (resp : SseResponse) : Except String (List Json) :=
  if !resp.ok then
    .error ("HTTP " ++ toString resp.status ++ ": " ++ resp.statusText)
  else
    match resp.body with
    | none => .ok []
    | some chunks => .ok (sseEvents chunks)

/-- The content mapping of chatStream (line 876): chunk.content with a
fallback to the empty string for falsy values, joined over the list.
Property access on a null chunk raises a TypeError instead. -/
def chatContent : List Json → Except String String
  | [] => .ok ""
  | .null :: _ => .error nullAccessError
  | c :: rest =>
    match chatContent rest with
    | .ok s =>
      .ok ((if truthyOpt (c.prop "content") then jsToString ((c.prop "content").getD .null) else "") ++ s)
    | .error e => .error e

/-- Settlement value of chatStream. -/
structure ChatResult where
  success : Bool
  content : Option String
  error : Option String
deriving Repr, DecidableEq

/-- llmApi.chatStream over a response: consume the stream, join the
content fields, succeed; any error thrown on the way becomes a failed
result carrying its message. -/
def chatStream (resp : SseResponse) : ChatResult :=
  match consumeSse resp with
  | .error m => ⟨false, none, some m⟩
  | .ok chunks =>
    match chatContent chunks with
    | .ok s => ⟨true, some s, none⟩
    | .error m => ⟨false, none, some m⟩

/-! # Claims -/

/-! ## C1: chunk-boundary invariance of the framing loop.

The loop is invariant under splits inside the two-newline delimiter and
inside multi-byte characters (the buffer and the decoder state persist),
but not under a split between the CR and the LF of a CR-LF pair: the
replace that normalizes CR-LF runs on each decoded chunk in isolation
(line 800), so a pair cut across two reads is never rejoined and the CR
survives into the record. -/

/-- C1: the claim fails on the code.  The same byte sequence framed as one
chunk and framed as two chunks split between a CR and its LF yields
different records and different decoded events: the single feed normalizes
the pair to one LF, the split feed leaves the CR inside the record and
hence inside the reassembled payload. -/
theorem C1_crlf_split_breaks_invariance :
    sseEvents [asciiBytes "data: A\r\ndata: B\n\n"] =
      [.obj (.cons "content" (.str "A\nB") .nil)] ∧
    sseEvents [asciiBytes "data: A\r", asciiBytes "\ndata: B\n\n"] =
      [.obj (.cons "content" (.str "A\r\nB") .nil)] ∧
    sseEvents [asciiBytes "data: A\r\ndata: B\n\n"] ≠
      sseEvents [asciiBytes "data: A\r", asciiBytes "\ndata: B\n\n"] :=
  ⟨rfl, rfl, by decide⟩

/-! ## C2: abort on an unregistered id. -/

/-- C2 counterexample: aborting an id that is not in the registry still
issues the remote notification and returns its promise unchanged, so when
the remote call fails the promise returned by abort rejects with that
error — the call does surface an error to a caller that awaits it. -/
theorem C2_remote_failure_surfaces :
    "req_x" ∉ ([] : List String) ∧
    (abortOp [] "req_x" (.error "HTTP 500: Internal Server Error")).promise =
      Except.error "HTTP 500: Internal Server Error" :=
  ⟨by simp, rfl⟩

/-- C2 amended: abort of an unregistered id triggers no cancellation
handle and leaves the registry unchanged — the local abort semantics are a
no-op unaffected by the remote call — but the out-of-band notification is
not fire-and-forget: its settlement, including failure, is returned to the
caller as the promise of the abort call. -/
theorem C2_abort_unregistered_local_noop (reg : List String) (id : String)
    (remote : Except String Json) (h : id ∉ reg) :
    (abortOp reg id remote).fired = [] ∧
    (abortOp reg id remote).registry = reg ∧
    (abortOp reg id remote).promise = remote := by
  simp [abortOp, h]

theorem C2_abort_unregistered_local_noop_witness :
    "req_x" ∉ ([] : List String) ∧
    (abortOp [] "req_x" (.ok .null)).fired = [] ∧
    (abortOp [] "req_x" (.ok .null)).registry = [] ∧
    (abortOp [] "req_x" (.ok .null)).promise = .ok .null := by
  refine ⟨by simp, ?_⟩
  exact C2_abort_unregistered_local_noop [] "req_x" (.ok .null) (by simp)

/-! ## C3: payload-line reassembly. -/

/-- Modelled from the spec: strip the payload prefix and at most one
leading space, preserving any further leading whitespace as payload text.
This is the behaviour the claim asserts; the source uses trimStart
instead. -/
def specAtMostOneSpace (l : List Char) : List Char :=
  match l with
  | ' ' :: rest => rest
  | _ => l

/-- Modelled from the spec: the payload reassembly the claim describes. -/
def specDataTextOriginal (block : List Char) : List Char :=
  joinNl (((splitOnNl block).filter
    (fun l => l.take 5 = "data:".data)).map
    (fun l => specAtMostOneSpace (l.drop 5)))

/-- C3 counterexample: on a line with two spaces after the prefix the code
strips both, where the claim keeps the second as payload text; a tab after
the prefix is likewise stripped by the code and kept by the claim. -/
theorem C3_second_space_stripped :
    dataTextOf "data:  a".data = "a".data ∧
    specDataTextOriginal "data:  a".data = " a".data ∧
    dataTextOf "data:  a".data ≠ specDataTextOriginal "data:  a".data ∧
    dataTextOf "data:\tb".data = "b".data ∧
    specDataTextOriginal "data:\tb".data = "\tb".data :=
  ⟨rfl, rfl, by decide, rfl, rfl⟩

/-- The amended reassembly, written as one fused pass over the lines:
keep the lines with the payload prefix, strip the five prefix characters
and every leading whitespace character from each. -/
def amendedPayloadLines : List (List Char) → List (List Char)
  | [] => []
  | l :: ls =>
    if l.take 5 = "data:".data then jsTrimStart (l.drop 5) :: amendedPayloadLines ls
    else amendedPayloadLines ls

/-- Modelled from the spec as amended: prefix lines kept, prefix and all
leading whitespace stripped, joined with newline. -/
def specDataTextAmended (block : List Char) : List Char :=
  joinNl (amendedPayloadLines (splitOnNl block))

theorem filter_map_payload_eq_amended (ls : List (List Char)) :
    (ls.filter (fun l => l.take 5 = "data:".data)).map
      (fun l => jsTrimStart (l.drop 5)) = amendedPayloadLines ls := by
  induction ls with
  | nil => rfl
  | cons l ls ih =>
    by_cases h : l.take 5 = "data:".data <;>
      simp [amendedPayloadLines, h, ih]

/-- C3 amended: the decoder keeps exactly the lines beginning with the
payload prefix, strips the prefix and all leading whitespace (not merely
one optional space) from each, and rejoins the retained lines with a
newline. -/
theorem C3_payload_reassembly_amended (block : List Char) :
    dataTextOf block = specDataTextAmended block ∧
    dataTextOf "data: x\ndata: y\nevent: z".data = "x\ny".data := by
  refine ⟨?_, rfl⟩
  unfold dataTextOf specDataTextAmended
  rw [filter_map_payload_eq_amended]

/-! ## C4: decoder totality and fallback.  decodeRecord is a total
function into Option Json by construction: every operation of emitBlock
is either total or, for JSON.parse, wrapped so that failure selects the
fallback value, which is what the source's try/catch does. -/

/-- C4: an empty record yields no event, an empty reassembled payload
yields no event, a payload rejected by JSON.parse yields the fallback
content object rather than an error, and the concrete record with payload
carrying field a = 1 decodes to that object. -/
theorem C4_decoder_totality (s : List Char) :
    decodeRecord [] = none ∧
    (dataTextOf s = [] → decodeRecord s = none) ∧
    (dataTextOf s ≠ [] → jsonParse (dataTextOf s) = none →
      decodeRecord s =
        some (.obj (.cons "content" (.str (String.mk (dataTextOf s))) .nil))) ∧
    decodeRecord "data: \x7b\"a\":1\x7d".data =
      some (.obj (.cons "a" (.num 1 0) .nil)) := by
  refine ⟨rfl, ?_, ?_, rfl⟩
  · intro h
    by_cases hs : s = []
    · simp [decodeRecord, hs]
    · simp [decodeRecord, hs, h]
  · intro h1 h2
    by_cases hs : s = []
    · exfalso; apply h1; rw [hs]; rfl
    · simp [decodeRecord, hs, h1, h2, toCamelDeep, toCamelFields,
        snakeToCamelStr, snakeToCamel, JsonFields.setField]

theorem C4_decoder_totality_witness :
    dataTextOf "data: hi".data ≠ [] ∧
    jsonParse (dataTextOf "data: hi".data) = none ∧
    decodeRecord "data: hi".data =
      some (.obj (.cons "content" (.str (String.mk (dataTextOf "data: hi".data))) .nil)) :=
  ⟨by decide, rfl, (C4_decoder_totality "data: hi".data).2.2.1 (by decide) rfl⟩

/-! ## C10: ok response without a readable body. -/

/-- C10: when the response is ok but its body is absent or does not
support incremental reading, consumeSseResponse returns the empty event
list without raising, no event is ever delivered to the observer (there is
nothing to deliver), and chatStream over such a response resolves
successfully with empty content. -/
theorem C10_unreadable_body_empty_success (status : Nat) (statusText : String) :
    consumeSse ⟨true, status, statusText, none⟩ = .ok [] ∧
    chatStream ⟨true, status, statusText, none⟩ = ⟨true, some "", none⟩ :=
  ⟨rfl, rfl⟩

/-! ## C6: abort of an active request. -/

/-- C6: for an id not already registered, starting the request inserts it,
and on every settlement path — success, transport failure, or abort — the
entry is removed from the registry effectively exactly once and the final
registry equals the initial one; when abort arrives while the request is
in flight, the fired cancellation makes the transport reject with an
AbortError and the promise settles with the aborted failure result. -/
theorem C6_abort_settles_and_cleans_up (reg : List String) (id : String)
    (h : id ∉ reg) :
    (∀ t, (runStreamLifecycle reg id true t).result = ⟨false, none, some "aborted"⟩) ∧
    (∀ aborted t,
      (runStreamLifecycle reg id aborted t).removals = 1 ∧
      id ∉ (runStreamLifecycle reg id aborted t).registry ∧
      (runStreamLifecycle reg id aborted t).registry = reg) := by
  have hset : registrySet reg id = reg ++ [id] := by simp [registrySet, h]
  have herase : (reg ++ [id]).erase id = reg := by
    rw [List.erase_append_right _ h]
    simp
  refine ⟨?_, ?_⟩
  · intro t
    simp [runStreamLifecycle, runStreamSettle]
  · intro aborted t
    cases aborted with
    | true =>
      refine ⟨?_, ?_, ?_⟩ <;>
        simp [runStreamLifecycle, hset, herase, h, List.erase_of_not_mem h]
    | false =>
      refine ⟨?_, ?_, ?_⟩ <;>
        simp [runStreamLifecycle, hset, herase, h, List.erase_of_not_mem h]

theorem C6_abort_settles_and_cleans_up_witness :
    "agent_1" ∉ ([] : List String) ∧
    (runStreamLifecycle [] "agent_1" true (.ok [])).result =
      ⟨false, none, some "aborted"⟩ ∧
    (runStreamLifecycle [] "agent_1" true (.ok [])).removals = 1 ∧
    (runStreamLifecycle [] "agent_1" true (.ok [])).registry = [] := by
  have h : "agent_1" ∉ ([] : List String) := by simp
  have a := C6_abort_settles_and_cleans_up [] "agent_1" h
  exact ⟨h, a.1 (.ok []), (a.2 true (.ok [])).1, (a.2 true (.ok [])).2.2⟩

/-! ## C5 and C8: the agent-run aggregation laws.

Declarative descriptions of the three reductions, stated independently of
the fold: the content strings, the tool-name values, and the usage values
carried by the event sequence, each under the exact guard the code tests. -/

def toolNameEvents (chunks : List Json) : List Json :=
  chunks.filterMap fun c =>
    if c.prop "type" = some (.str "tool_start") ∧ truthyOpt (c.prop "toolName")
    then some ((c.prop "toolName").getD .null) else none

def contentStrings (chunks : List Json) : List String :=
  chunks.filterMap fun c =>
    if c.prop "type" = some (.str "content") ∧ truthyOpt (c.prop "content")
    then some (jsToString ((c.prop "content").getD .null)) else none

def usageValues (chunks : List Json) : List Json :=
  chunks.filterMap fun c =>
    if c.prop "type" = some (.str "done") ∧ truthyOpt (c.prop "usage")
    then c.prop "usage" else none

/-- In-order concatenation of a list of strings. -/
def concatAll : List String → String
  | [] => ""
  | s :: l => s ++ concatAll l

/-- The three field updates of the chunk callback are independent: each is
guarded by its own test of the chunk alone. -/
theorem agentOnChunk_components (st : AggState) (c : Json) :
    agentOnChunk st c =
      ⟨if c.prop "type" = some (.str "tool_start") ∧ truthyOpt (c.prop "toolName")
        then setAdd st.toolsUsed ((c.prop "toolName").getD .null) else st.toolsUsed,
       if c.prop "type" = some (.str "content") ∧ truthyOpt (c.prop "content")
        then st.content ++ jsToString ((c.prop "content").getD .null) else st.content,
       if c.prop "type" = some (.str "done") ∧ truthyOpt (c.prop "usage")
        then c.prop "usage" else st.usage⟩ := by
  cases c <;> simp [agentOnChunk, Json.prop] <;> split_ifs <;> simp_all

theorem foldl_agent_toolsUsed (chunks : List Json) (st : AggState) :
    (chunks.foldl agentOnChunk st).toolsUsed =
      (toolNameEvents chunks).foldl setAdd st.toolsUsed := by
  induction chunks generalizing st with
  | nil => simp [toolNameEvents]
  | cons c rest ih =>
    rw [List.foldl_cons, ih, agentOnChunk_components]
    by_cases h : c.prop "type" = some (.str "tool_start") ∧ truthyOpt (c.prop "toolName") <;>
      simp [toolNameEvents, h]

theorem foldl_agent_content (chunks : List Json) (st : AggState) :
    (chunks.foldl agentOnChunk st).content =
      st.content ++ concatAll (contentStrings chunks) := by
  induction chunks generalizing st with
  | nil => simp [contentStrings, concatAll]
  | cons c rest ih =>
    rw [List.foldl_cons, ih, agentOnChunk_components]
    by_cases h : c.prop "type" = some (.str "content") ∧ truthyOpt (c.prop "content") <;>
      simp [contentStrings, h, concatAll, String.append_assoc]

theorem foldl_agent_usage (chunks : List Json) (st : AggState) :
    (chunks.foldl agentOnChunk st).usage =
      (usageValues chunks).foldl (fun _ u => some u) st.usage := by
  induction chunks generalizing st with
  | nil => simp [usageValues]
  | cons c rest ih =>
    rw [List.foldl_cons, ih, agentOnChunk_components]
    by_cases h : c.prop "type" = some (.str "done") ∧ truthyOpt (c.prop "usage")
    · obtain ⟨u, hu⟩ : ∃ u, c.prop "usage" = some u := by
        rcases hc : c.prop "usage" with _ | u
        · rw [hc] at h; simp [truthyOpt] at h
        · exact ⟨u, rfl⟩
      have htu : truthyOpt (some u) = true := by rw [← hu]; exact h.2
      simp [usageValues, h, hu, htu]
    · simp [usageValues, h]

theorem mem_setAdd {s : List Json} {v x : Json} : x ∈ setAdd s v ↔ x ∈ s ∨ x = v := by
  by_cases h : v ∈ s
  · simp only [setAdd, if_pos h]
    constructor
    · exact Or.inl
    · rintro (hx | rfl)
      · exact hx
      · exact h
  · simp [setAdd, h]

theorem mem_foldl_setAdd {l : List Json} {s : List Json} {x : Json} :
    x ∈ l.foldl setAdd s ↔ x ∈ s ∨ x ∈ l := by
  induction l generalizing s with
  | nil => simp
  | cons a l ih =>
    rw [List.foldl_cons, ih]
    simp [mem_setAdd]
    tauto

theorem nodup_setAdd {s : List Json} {v : Json} (h : s.Nodup) : (setAdd s v).Nodup := by
  by_cases hv : v ∈ s
  · simp [setAdd, hv, h]
  · simp only [setAdd, if_neg hv]
    rw [List.nodup_append]
    exact ⟨h, List.nodup_singleton v, by simp [List.disjoint_singleton, hv]⟩

theorem nodup_foldl_setAdd {l s : List Json} (h : s.Nodup) : (l.foldl setAdd s).Nodup := by
  induction l generalizing s with
  | nil => exact h
  | cons a l ih => exact ih (nodup_setAdd h)

theorem foldl_setAdd_absorb {l s : List Json} (h : ∀ x ∈ l, x ∈ s) :
    l.foldl setAdd s = s := by
  induction l with
  | nil => rfl
  | cons a l ih =>
    have ha : a ∈ s := h a (List.mem_cons_self a l)
    rw [List.foldl_cons, setAdd, if_pos ha]
    exact ih (fun x hx => h x (List.mem_cons_of_mem a hx))

theorem length_foldl_setAdd (l : List Json) :
    (l.foldl setAdd []).length = l.dedup.length := by
  have h1 : (l.foldl setAdd []).Nodup := nodup_foldl_setAdd (by simp)
  have h2 : (l.foldl setAdd []).toFinset = l.toFinset := by
    ext x
    simp [List.mem_toFinset, mem_foldl_setAdd]
  calc (l.foldl setAdd []).length
      = (l.foldl setAdd []).toFinset.card := (List.toFinset_card_of_nodup h1).symm
    _ = l.toFinset.card := by rw [h2]
    _ = l.dedup.length := List.card_toFinset l

theorem rescanToolsFrom_cons {c : Json} (hc : c ≠ .null) (tools rest : List Json) :
    rescanToolsFrom tools (c :: rest) =
      rescanToolsFrom
        (if c.prop "type" = some (.str "tool_start") ∧ truthyOpt (c.prop "toolName")
          then setAdd tools ((c.prop "toolName").getD .null) else tools) rest := by
  cases c <;> first | exact absurd rfl hc | rfl

theorem rescanToolsFrom_eq {chunks : List Json} (hnull : Json.null ∉ chunks) :
    ∀ tools, rescanToolsFrom tools chunks =
      .ok ((toolNameEvents chunks).foldl setAdd tools) := by
  induction chunks with
  | nil => intro tools; simp [rescanToolsFrom, toolNameEvents]
  | cons c rest ih =>
    intro tools
    have hc : c ≠ .null := fun h => hnull (h ▸ List.mem_cons_self c rest)
    have hrest : Json.null ∉ rest := fun h => hnull (List.mem_cons_of_mem c h)
    rw [rescanToolsFrom_cons hc, ih hrest]
    by_cases h : c.prop "type" = some (.str "tool_start") ∧ truthyOpt (c.prop "toolName") <;>
      simp [toolNameEvents, h]

theorem rescanToolsFrom_ok_no_null {chunks : List Json} :
    ∀ {tools S : List Json}, rescanToolsFrom tools chunks = .ok S → Json.null ∉ chunks := by
  induction chunks with
  | nil => intro _ _ _; simp
  | cons c rest ih =>
    intro tools S h
    cases c
    case null => simp [rescanToolsFrom] at h
    all_goals {
      simp only [rescanToolsFrom] at h
      simp only [List.mem_cons]
      rintro (h1 | h2)
      · exact Json.noConfusion h1
      · exact ih h h2 }

theorem foldl_overwrite_or (l : List Json) (init : Option Json) :
    l.foldl (fun _ u => some u) init = (l.getLast?).or init := by
  induction l using List.reverseRecOn with
  | nil => simp
  | append_singleton l x ih => simp [List.getLast?_concat]

/-- Characterization of a successful aggregation: the content is the
in-order concatenation of the content-event strings, the tool set holds
exactly the tool-start names, the round count is the number of distinct
tool names, and the usage is the last captured usage value. -/
theorem aggregateAgentRun_ok {chunks : List Json} {v : AgentRunValue}
    (h : aggregateAgentRun chunks = .ok v) :
    v.content = concatAll (contentStrings chunks) ∧
    (∀ x, x ∈ v.toolsUsed ↔ x ∈ toolNameEvents chunks) ∧
    v.toolRounds = (toolNameEvents chunks).dedup.length ∧
    v.totalUsage = (usageValues chunks).getLast? := by
  simp only [aggregateAgentRun] at h
  rcases hr : rescanToolsFrom (chunks.foldl agentOnChunk AggState.start).toolsUsed chunks
    with e | tools
  · rw [hr] at h
    simp at h
  · rw [hr] at h
    simp only [Except.ok.injEq] at h
    subst h
    have hnull := rescanToolsFrom_ok_no_null hr
    have htools : (chunks.foldl agentOnChunk AggState.start).toolsUsed =
        (toolNameEvents chunks).foldl setAdd [] := by
      rw [foldl_agent_toolsUsed]
      rfl
    have habs : (toolNameEvents chunks).foldl setAdd
        ((chunks.foldl agentOnChunk AggState.start).toolsUsed) =
        (chunks.foldl agentOnChunk AggState.start).toolsUsed := by
      apply foldl_setAdd_absorb
      intro x hx
      rw [htools]
      exact mem_foldl_setAdd.mpr (Or.inr hx)
    rw [rescanToolsFrom_eq hnull, habs] at hr
    have hrt : tools = (toolNameEvents chunks).foldl setAdd [] := by
      have := Except.ok.inj hr
      rw [← this, htools]
    refine ⟨?_, ?_, ?_, ?_⟩
    · rw [foldl_agent_content]
      simp [AggState.start]
    · intro x
      rw [hrt, mem_foldl_setAdd]
      simp
    · rw [hrt, length_foldl_setAdd]
    · rw [foldl_agent_usage]
      simp [AggState.start, foldl_overwrite_or]

/-- The wire body of end-to-end scenario A: three records separated by
blank lines, carrying a content event, a tool-start event, and a done
event with usage. -/
def scenarioA : String :=
  "data: \x7b\"type\":\"content\",\"content\":\"Hi\"\x7d\n\ndata: \x7b\"type\":\"tool_start\",\"toolName\":\"search\"\x7d\n\ndata: \x7b\"type\":\"done\",\"usage\":\x7b\"tokens\":5\x7d\x7d"

/-- C5: scenario A aggregates end to end, from the wire bytes through
framing, decoding, and aggregation, to the stated successful result; and
in general, for every successfully aggregated event sequence, the content
is the in-arrival-order concatenation of the content-event contents, the
round count is the cardinality of the distinct tool-name set, the tool set
holds exactly the tool-start names, and the captured usage is the last
done event's usage value, overwriting any earlier one. -/
theorem C5_scenarioA_and_aggregation_laws :
    runStreamSettle (.ok (sseEvents [asciiBytes scenarioA])) =
      ⟨true, some ⟨"Hi", [.str "search"], 1,
        some (.obj (.cons "tokens" (.num 5 0) .nil))⟩, none⟩ ∧
    (∀ chunks v, aggregateAgentRun chunks = .ok v →
      v.content = concatAll (contentStrings chunks) ∧
      v.toolRounds = (toolNameEvents chunks).dedup.length ∧
      (∀ x, x ∈ v.toolsUsed ↔ x ∈ toolNameEvents chunks) ∧
      v.totalUsage = (usageValues chunks).getLast?) := by
  refine ⟨rfl, fun chunks v h => ?_⟩
  obtain ⟨h1, h2, h3, h4⟩ := aggregateAgentRun_ok h
  exact ⟨h1, h3, h2, h4⟩

theorem C5_scenarioA_and_aggregation_laws_witness :
    aggregateAgentRun (sseEvents [asciiBytes scenarioA]) =
      .ok ⟨"Hi", [.str "search"], 1, some (.obj (.cons "tokens" (.num 5 0) .nil))⟩ ∧
    "Hi" = concatAll (contentStrings (sseEvents [asciiBytes scenarioA])) ∧
    (1 : Nat) = (toolNameEvents (sseEvents [asciiBytes scenarioA])).dedup.length := by
  refine ⟨rfl, ?_, ?_⟩
  · exact (C5_scenarioA_and_aggregation_laws.2 (sseEvents [asciiBytes scenarioA])
      ⟨"Hi", [.str "search"], 1, some (.obj (.cons "tokens" (.num 5 0) .nil))⟩ rfl).1
  · exact (C5_scenarioA_and_aggregation_laws.2 (sseEvents [asciiBytes scenarioA])
      ⟨"Hi", [.str "search"], 1, some (.obj (.cons "tokens" (.num 5 0) .nil))⟩ rfl).2.1

/-- C8: whenever the re-scan of the completed event list computes a tool
set (it raises on a null chunk, in which case there is no set to compare),
that set equals the set accumulated incrementally by the live callback
over the same, identically ordered, delivered events. -/
theorem C8_live_rescan_agreement (chunks S : List Json)
    (h : rescanToolsFrom [] chunks = .ok S) :
    S = (chunks.foldl agentOnChunk AggState.start).toolsUsed := by
  have hnull := rescanToolsFrom_ok_no_null h
  rw [rescanToolsFrom_eq hnull] at h
  have := Except.ok.inj h
  rw [← this, foldl_agent_toolsUsed]
  rfl

/-- A concrete tool-start event chunk. -/
def toolStartChunk : Json :=
  .obj (.cons "type" (.str "tool_start") (.cons "toolName" (.str "search") .nil))

theorem C8_live_rescan_agreement_witness :
    rescanToolsFrom [] [toolStartChunk] = .ok [.str "search"] ∧
    [Json.str "search"] = (([toolStartChunk]).foldl agentOnChunk AggState.start).toolsUsed :=
  ⟨rfl, C8_live_rescan_agreement [toolStartChunk] [.str "search"] rfl⟩

/-! ## C9: key-casing normalization. -/

/-! keysDeep collects all object keys occurring anywhere in a value,
including inside arrays. -/

mutual
def keysDeep : Json → List String
  | .null => []
  | .bool _ => []
  | .num _ _ => []
  | .str _ => []
  | .arr xs => keysList xs
  | .obj fs => keysFields fs
def keysList : JsonList → List String
  | .nil => []
  | .cons x xs => keysDeep x ++ keysList xs
def keysFields : JsonFields → List String
  | .nil => []
  | .cons k v fs => k :: (keysDeep v ++ keysFields fs)
end

theorem keysFields_setField : ∀ (fs : JsonFields) (k : String) (v : Json) (x : String),
    x ∈ keysFields (fs.setField k v) → x = k ∨ x ∈ keysDeep v ∨ x ∈ keysFields fs
  | .nil, k, v, x => by
    intro hx
    simp [JsonFields.setField, keysFields] at hx
    tauto
  | .cons k2 v2 fs, k, v, x => by
    intro hx
    by_cases h : k2 = k
    · rw [JsonFields.setField, if_pos h] at hx
      simp [keysFields] at hx
      rcases hx with rfl | hx | hx
      · exact Or.inl h
      · exact Or.inr (Or.inl hx)
      · simp [keysFields]
        tauto
    · rw [JsonFields.setField, if_neg h] at hx
      simp [keysFields] at hx
      rcases hx with rfl | hx | hx
      · simp [keysFields]
      · simp [keysFields]
        tauto
      · rcases keysFields_setField fs k v x hx with h1 | h1 | h1
        · exact Or.inl h1
        · exact Or.inr (Or.inl h1)
        · simp [keysFields]
          tauto

mutual
theorem keysDeep_toCamel : ∀ (j : Json), ∀ x ∈ keysDeep (toCamelDeep j),
    ∃ k0 ∈ keysDeep j, x = snakeToCamelStr k0
  | .null => by simp [toCamelDeep, keysDeep]
  | .bool b => by simp [toCamelDeep, keysDeep]
  | .num m e => by simp [toCamelDeep, keysDeep]
  | .str s => by simp [toCamelDeep, keysDeep]
  | .arr xs => by
    simpa [toCamelDeep, keysDeep] using keysList_toCamel xs
  | .obj fs => by
    intro x hx
    simp only [toCamelDeep, keysDeep] at hx
    rcases keysFields_toCamel fs .nil x hx with ⟨k0, hk0, hxk⟩ | h
    · exact ⟨k0, by simpa [keysDeep] using hk0, hxk⟩
    · simp [keysFields] at h
theorem keysList_toCamel : ∀ (xs : JsonList), ∀ x ∈ keysList (toCamelList xs),
    ∃ k0 ∈ keysList xs, x = snakeToCamelStr k0
  | .nil => by simp [toCamelList, keysList]
  | .cons j xs => by
    intro x hx
    simp only [toCamelList, keysList, List.mem_append] at hx
    rcases hx with hx | hx
    · rcases keysDeep_toCamel j x hx with ⟨k0, hk0, hxk⟩
      exact ⟨k0, by simp [keysList]; tauto, hxk⟩
    · rcases keysList_toCamel xs x hx with ⟨k0, hk0, hxk⟩
      exact ⟨k0, by simp [keysList]; tauto, hxk⟩
theorem keysFields_toCamel : ∀ (fs : JsonFields) (acc : JsonFields), ∀ x ∈ keysFields (toCamelFields fs acc),
    (∃ k0 ∈ keysFields fs, x = snakeToCamelStr k0) ∨ x ∈ keysFields acc
  | .nil => by
    intro acc x hx
    simp only [toCamelFields] at hx
    exact Or.inr hx
  | .cons k v fs => by
    intro acc x hx
    simp only [toCamelFields] at hx
    rcases keysFields_toCamel fs (acc.setField (snakeToCamelStr k) (toCamelDeep v)) x hx with ⟨k0, hk0, hxk⟩ | h
    · refine Or.inl ⟨k0, ?_, hxk⟩
      simp [keysFields]
      tauto
    · rcases keysFields_setField _ _ _ _ h with h1 | h1 | h1
      · exact Or.inl ⟨k, by simp [keysFields], h1⟩
      · rcases keysDeep_toCamel v x h1 with ⟨k0, hk0, hxk⟩
        refine Or.inl ⟨k0, ?_, hxk⟩
        simp [keysFields]
        tauto
      · exact Or.inr h1
end

/-! A key is in lowercase snake form when every underscore in it is
immediately followed by a lowercase letter; exactly these underscores are
consumed by the replace pattern. -/

def underscoresFollowed : List Char → Bool
  | [] => true
  | [c] => c ≠ '_'
  | c :: c2 :: rest =>
    if c = '_' then decide ('a' ≤ c2 ∧ c2 ≤ 'z') && underscoresFollowed (c2 :: rest)
    else underscoresFollowed (c2 :: rest)

theorem underscoresFollowed_cons_ne {c : Char} (hc : ¬ c = '_') (l : List Char) :
    underscoresFollowed (c :: l) = underscoresFollowed l := by
  cases l with
  | nil => simp [underscoresFollowed, hc]
  | cons c2 l2 => simp [underscoresFollowed, hc]

theorem toNat_ofNat_valid {n : Nat} (h : n < 55296) : (Char.ofNat n).toNat = n := by
  have hv : n.isValidChar := Or.inl h
  rw [Char.ofNat, dif_pos hv]
  rfl

theorem toUpper_lower_ne_underscore (c : Char) (h1 : 'a' ≤ c) (h2 : c ≤ 'z') :
    c.toUpper ≠ '_' := by
  have ha : 97 ≤ c.toNat := h1
  have hb : c.toNat ≤ 122 := h2
  have hup : c.toUpper = Char.ofNat (c.toNat - 32) := by
    simp [Char.toUpper, ha, hb]
  intro he
  have hco : (Char.ofNat (c.toNat - 32)).toNat = c.toNat - 32 :=
    toNat_ofNat_valid (by omega)
  rw [hup] at he
  have : c.toNat - 32 = 95 := by
    rw [← hco, he]
    rfl
  omega

theorem lower_ne_underscore {c : Char} (h1 : 'a' ≤ c) (h2 : c ≤ 'z') : c ≠ '_' := by
  intro he
  subst he
  exact absurd h1 (by decide)

theorem snakeToCamel_no_underscore :
    ∀ (s : List Char), underscoresFollowed s = true → '_' ∉ snakeToCamel s
  | [] => by
    intro h
    simp [snakeToCamel]
  | [c] => by
    intro h hmem
    by_cases hc : c = '_'
    · subst hc
      simp [underscoresFollowed] at h
    · simp [snakeToCamel, hc] at hmem
      exact hc hmem.symm
  | c1 :: c2 :: rest => by
    intro h hmem
    by_cases h1 : c1 = '_'
    · subst h1
      have hu : underscoresFollowed ('_' :: c2 :: rest) =
          (decide ('a' ≤ c2 ∧ c2 ≤ 'z') && underscoresFollowed (c2 :: rest)) := rfl
      rw [hu, Bool.and_eq_true, decide_eq_true_eq] at h
      obtain ⟨hc2, hrest⟩ := h
      rw [show snakeToCamel ('_' :: c2 :: rest) = c2.toUpper :: snakeToCamel rest from by
        simp [snakeToCamel, hc2]] at hmem
      rcases List.mem_cons.mp hmem with he | he
      · exact toUpper_lower_ne_underscore c2 hc2.1 hc2.2 he.symm
      · have hr : underscoresFollowed rest = true := by
          rw [underscoresFollowed_cons_ne (lower_ne_underscore hc2.1 hc2.2)] at hrest
          exact hrest
        exact snakeToCamel_no_underscore rest hr he
    · rw [show snakeToCamel (c1 :: c2 :: rest) = c1 :: snakeToCamel (c2 :: rest) from by
        simp [snakeToCamel, h1]] at hmem
      have hr : underscoresFollowed (c2 :: rest) = true := by
        rw [underscoresFollowed_cons_ne h1] at h
        exact h
      rcases List.mem_cons.mp hmem with he | he
      · exact h1 he.symm
      · exact snakeToCamel_no_underscore (c2 :: rest) hr he

/-- C9 counterexample: a key whose letters are not lowercase passes
through the replace unchanged, so a wire key in upper snake case keeps its
underscore and does not come out in camel case — the output casing is not
uniform regardless of the wire casing. -/
theorem C9_upper_snake_key_unchanged :
    toCamelDeep (.obj (.cons "TOOL_NAME" (.num 1 0) .nil)) =
      .obj (.cons "TOOL_NAME" (.num 1 0) .nil) ∧
    '_' ∈ "TOOL_NAME".data :=
  ⟨rfl, by decide⟩

/-- C9 amended: every key of the normalized value, at every nesting depth
including inside arrays, is the snakeToCamel image of a key of the wire
value; and a key in lowercase snake form — every underscore immediately
followed by a lowercase letter — comes out with no underscore at all,
hence in camel case.  Keys not in that form may keep their underscores. -/
theorem C9_keys_normalized_deeply (j : Json) :
    (∀ x ∈ keysDeep (toCamelDeep j), ∃ k0 ∈ keysDeep j, x = snakeToCamelStr k0) ∧
    (∀ k : List Char, underscoresFollowed k = true → '_' ∉ snakeToCamel k) :=
  ⟨keysDeep_toCamel j, snakeToCamel_no_underscore⟩

theorem C9_keys_normalized_deeply_witness :
    (∃ k0 ∈ keysDeep (Json.obj (.cons "tool_name"
        (.arr (.cons (.obj (.cons "start_ts" (.num 1 0) .nil)) .nil)) .nil)),
      "toolName" = snakeToCamelStr k0) ∧
    underscoresFollowed "tool_name".data = true ∧
    '_' ∉ snakeToCamel "tool_name".data := by
  refine ⟨?_, by decide, ?_⟩
  · exact (C9_keys_normalized_deeply (Json.obj (.cons "tool_name"
      (.arr (.cons (.obj (.cons "start_ts" (.num 1 0) .nil)) .nil)) .nil))).1
      "toolName" (by decide)
  · exact (C9_keys_normalized_deeply .null).2 "tool_name".data (by decide)

/-! ## C7: the trailing-flush law. -/

/-- The blocks cut out by the read loop itself, before end of stream. -/
def loopRecords (chunks : List (List Nat)) : List (List Char) :=
  (feedChunks FramerState.start chunks).2

/-- The one final block handed to emitBlock at end of stream: the
remaining buffer, extended by the flushed decoder text, trimmed
(lines 809-810). -/
def finalFlushRecord (chunks : List (List Nat)) : List Char :=
  jsTrim ((feedChunks FramerState.start chunks).1.buffer ++
    crlfNormalize (utf8Flush (feedChunks FramerState.start chunks).1.dec))

/-- C7: for every chunked body, the event list is the loop's decoded
records followed by whatever the same per-record decoder yields on the
trimmed final buffered block, so a body ending without a trailing blank
line still contributes its last record through the same decode-and-deliver
path; when the remaining buffer trims to empty nothing extra is emitted;
and concretely a body whose last record has no trailing delimiter still
yields that record's event. -/
theorem C7_trailing_flush_law (chunks : List (List Nat)) :
    sseEvents chunks =
      (loopRecords chunks).filterMap decodeRecord ++
        (decodeRecord (finalFlushRecord chunks)).toList ∧
    (finalFlushRecord chunks = [] →
      sseEvents chunks = (loopRecords chunks).filterMap decodeRecord) ∧
    sseEvents [asciiBytes "data: \x7b\"a\":1\x7d\n\ndata: hi"] =
      [.obj (.cons "a" (.num 1 0) .nil), .obj (.cons "content" (.str "hi") .nil)] := by
  have h1 : sseEvents chunks =
      (loopRecords chunks).filterMap decodeRecord ++
        (decodeRecord (finalFlushRecord chunks)).toList := by
    simp only [sseEvents, frameChunks, loopRecords, finalFlushRecord, List.filterMap_append,
      List.filterMap_cons, List.filterMap_nil]
    cases hdr : decodeRecord (jsTrim ((feedChunks FramerState.start chunks).1.buffer ++
        crlfNormalize (utf8Flush (feedChunks FramerState.start chunks).1.dec))) <;>
      simp [Option.toList]
  refine ⟨h1, ?_, rfl⟩
  intro h
  rw [h1, h]
  simp [decodeRecord]

theorem C7_trailing_flush_law_witness :
    finalFlushRecord [asciiBytes "data: x\n\n"] = [] ∧
    sseEvents [asciiBytes "data: x\n\n"] =
      (loopRecords [asciiBytes "data: x\n\n"]).filterMap decodeRecord :=
  ⟨rfl, (C7_trailing_flush_law [asciiBytes "data: x\n\n"]).2.1 rfl⟩

/-! ## Supporting development for C1: the framing pass is invariant under
every chunking whose decoded-text boundaries never separate a CR from an
immediately following LF.  Together with the counterexample above this
isolates the defect precisely: only a split inside a CR-LF pair changes
the records. -/

theorem scanBlocks_blocks_nil : ∀ (s : List Char),
    (scanBlocks s).1 = [] → (scanBlocks s).2 = s
  | [] => by intro _; rfl
  | [c] => by intro _; rfl
  | c :: c2 :: rest => by
    intro h
    by_cases hd : c = '\n' ∧ c2 = '\n'
    · rw [show scanBlocks (c :: c2 :: rest) =
        ([] :: (scanBlocks rest).1, (scanBlocks rest).2) from by
          simp [scanBlocks, hd]] at h
      simp at h
    · have he : scanBlocks (c :: c2 :: rest) =
          match scanBlocks (c2 :: rest) with
          | (b :: bs, r) => ((c :: b) :: bs, r)
          | ([], r) => ([], c :: r) := by
        simp [scanBlocks, hd]
      rcases hm : scanBlocks (c2 :: rest) with ⟨bl, r⟩
      cases bl with
      | nil =>
        rw [he, hm]
        have := scanBlocks_blocks_nil (c2 :: rest) (by rw [hm])
        rw [hm] at this
        simp at this
        simp [this]
      | cons b bs =>
        rw [he, hm] at h
        simp at h

theorem scanBlocks_residual : ∀ (s : List Char),
    scanBlocks ((scanBlocks s).2) = ([], (scanBlocks s).2)
  | [] => by rfl
  | [c] => by rfl
  | c :: c2 :: rest => by
    by_cases hd : c = '\n' ∧ c2 = '\n'
    · rw [show scanBlocks (c :: c2 :: rest) =
        ([] :: (scanBlocks rest).1, (scanBlocks rest).2) from by simp [scanBlocks, hd]]
      exact scanBlocks_residual rest
    · have he : scanBlocks (c :: c2 :: rest) =
          match scanBlocks (c2 :: rest) with
          | (b :: bs, r) => ((c :: b) :: bs, r)
          | ([], r) => ([], c :: r) := by
        simp [scanBlocks, hd]
      rcases hm : scanBlocks (c2 :: rest) with ⟨bl, r⟩
      cases bl with
      | nil =>
        have hr : r = c2 :: rest := by
          have := scanBlocks_blocks_nil (c2 :: rest) (by rw [hm])
          rw [hm] at this
          exact this
        rw [he, hm]
        simp only []
        -- goal: scanBlocks (c :: r) = ([], c :: r)
        subst hr
        rw [show scanBlocks (c :: c2 :: rest) =
            match scanBlocks (c2 :: rest) with
            | (b :: bs, r) => ((c :: b) :: bs, r)
            | ([], r) => ([], c :: r) from he, hm]
      | cons b bs =>
        rw [he, hm]
        simp only []
        have := scanBlocks_residual (c2 :: rest)
        rw [hm] at this
        exact this

theorem scanBlocks_append : ∀ (s t : List Char),
    scanBlocks (s ++ t) =
      ((scanBlocks s).1 ++ (scanBlocks ((scanBlocks s).2 ++ t)).1,
       (scanBlocks ((scanBlocks s).2 ++ t)).2)
  | [], t => by simp [scanBlocks]
  | [c], t => by simp [scanBlocks]
  | c :: c2 :: rest, t => by
    by_cases hd : c = '\n' ∧ c2 = '\n'
    · have h1 : scanBlocks (c :: c2 :: rest) =
          ([] :: (scanBlocks rest).1, (scanBlocks rest).2) := by simp [scanBlocks, hd]
      have h2 : scanBlocks ((c :: c2 :: rest) ++ t) =
          ([] :: (scanBlocks (rest ++ t)).1, (scanBlocks (rest ++ t)).2) := by
        simp only [List.cons_append]
        simp [scanBlocks, hd]
      rw [h1, h2, scanBlocks_append rest t]
      simp
    · have h1 : scanBlocks (c :: c2 :: rest) =
          match scanBlocks (c2 :: rest) with
          | (b :: bs, r) => ((c :: b) :: bs, r)
          | ([], r) => ([], c :: r) := by simp [scanBlocks, hd]
      have h2 : scanBlocks ((c :: c2 :: rest) ++ t) =
          match scanBlocks ((c2 :: rest) ++ t) with
          | (b :: bs, r) => ((c :: b) :: bs, r)
          | ([], r) => ([], c :: r) := by
        simp only [List.cons_append]
        simp [scanBlocks, hd]
      rw [h2, scanBlocks_append (c2 :: rest) t]
      rcases hm : scanBlocks (c2 :: rest) with ⟨bl, r⟩
      cases bl with
      | cons b bs =>
        rw [h1, hm]
        simp
      | nil =>
        have hr : r = c2 :: rest := by
          have := scanBlocks_blocks_nil (c2 :: rest) (by rw [hm])
          rw [hm] at this
          exact this
        rw [h1, hm]
        simp only [List.nil_append]
        have h3 : scanBlocks ((c :: r) ++ t) =
            match scanBlocks (r ++ t) with
            | (b :: bs, r2) => ((c :: b) :: bs, r2)
            | ([], r2) => ([], c :: r2) := by
          subst hr
          simp only [List.cons_append]
          simp [scanBlocks, hd]
        rw [h3]

theorem crlfNormalize_append : ∀ (a b : List Char),
    ¬(a.getLast? = some '\r' ∧ b.head? = some '\n') →
    crlfNormalize (a ++ b) = crlfNormalize a ++ crlfNormalize b
  | [], b => by intro _; rfl
  | [c], b => by
    intro h
    cases b with
    | nil => simp [crlfNormalize]
    | cons d b2 =>
      have hcd : ¬(c = '\r' ∧ d = '\n') := by
        rintro ⟨rfl, rfl⟩
        exact h ⟨rfl, rfl⟩
      simp only [List.cons_append, List.nil_append]
      rw [show crlfNormalize (c :: d :: b2) = c :: crlfNormalize (d :: b2) from by
        simp [crlfNormalize, hcd]]
      rfl
  | c :: c2 :: rest, b => by
    intro h
    by_cases hd : c = '\r' ∧ c2 = '\n'
    · obtain ⟨rfl, rfl⟩ := hd
      cases rest with
      | nil =>
        simp only [List.cons_append, List.nil_append]
        rw [show crlfNormalize ('\r' :: '\n' :: b) = '\n' :: crlfNormalize b from by
          simp [crlfNormalize]]
        rfl
      | cons c3 rest2 =>
        have hh : ¬((c3 :: rest2).getLast? = some '\r' ∧ b.head? = some '\n') := by
          intro hx
          apply h
          refine ⟨?_, hx.2⟩
          rw [List.getLast?_cons_cons, List.getLast?_cons_cons]
          exact hx.1
        have ha1 : crlfNormalize ('\r' :: '\n' :: c3 :: rest2) =
            '\n' :: crlfNormalize (c3 :: rest2) := by simp [crlfNormalize]
        have ha2 : crlfNormalize (('\r' :: '\n' :: c3 :: rest2) ++ b) =
            '\n' :: crlfNormalize ((c3 :: rest2) ++ b) := by
          simp only [List.cons_append]
          simp [crlfNormalize]
        rw [ha1, ha2, crlfNormalize_append (c3 :: rest2) b hh]
        rfl
    · have hh : ¬((c2 :: rest).getLast? = some '\r' ∧ b.head? = some '\n') := by
        intro hx
        apply h
        refine ⟨?_, hx.2⟩
        rw [List.getLast?_cons_cons]
        exact hx.1
      have ha1 : crlfNormalize (c :: c2 :: rest) =
          c :: crlfNormalize (c2 :: rest) := by simp [crlfNormalize, hd]
      have ha2 : crlfNormalize ((c :: c2 :: rest) ++ b) =
          c :: crlfNormalize ((c2 :: rest) ++ b) := by
        simp only [List.cons_append]
        simp [crlfNormalize, hd]
      rw [ha1, ha2, crlfNormalize_append (c2 :: rest) b hh]
      rfl

theorem utf8FeedChunk_append : ∀ (a b : List Nat) (st : Utf8State),
    utf8FeedChunk st (a ++ b) =
      ((utf8FeedChunk (utf8FeedChunk st a).1 b).1,
       (utf8FeedChunk st a).2 ++ (utf8FeedChunk (utf8FeedChunk st a).1 b).2)
  | [], b, st => by simp [utf8FeedChunk]
  | x :: a, b, st => by
    simp only [List.cons_append, utf8FeedChunk, List.append_eq]
    simp only [utf8FeedChunk_append a b (utf8Feed st x).1]
    simp [List.append_assoc]

/-- The text each read-loop iteration appends, before CR-LF normalization:
the decoder output on the corresponding byte chunk. -/
def decodedTexts (st : Utf8State) : List (List Nat) → List (List Char)
  | [] => []
  | c :: cs => (utf8FeedChunk st c).2 :: decodedTexts (utf8FeedChunk st c).1 cs

/-- The decoder state after all chunks. -/
def decodeAllState (st : Utf8State) : List (List Nat) → Utf8State
  | [] => st
  | c :: cs => decodeAllState (utf8FeedChunk st c).1 cs

/-- The read loop at the text level: per chunk text, normalize, append to
the buffer, and cut out the complete blocks. -/
def feedTexts (buf : List Char) : List (List Char) → List Char × List (List Char)
  | [] => (buf, [])
  | t :: ts =>
    let p := scanBlocks (buf ++ crlfNormalize t)
    let q := feedTexts p.2 ts
    (q.1, p.1.map jsTrim ++ q.2)

theorem feedChunks_as_texts : ∀ (chunks : List (List Nat)) (fs : FramerState),
    feedChunks fs chunks =
      (⟨decodeAllState fs.dec chunks, (feedTexts fs.buffer (decodedTexts fs.dec chunks)).1⟩,
       (feedTexts fs.buffer (decodedTexts fs.dec chunks)).2)
  | [], fs => by simp [feedChunks, decodeAllState, decodedTexts, feedTexts]
  | c :: cs, fs => by
    simp only [feedChunks, feedChunk, decodedTexts, decodeAllState, feedTexts]
    rw [feedChunks_as_texts cs]

theorem decodedTexts_flatten : ∀ (chunks : List (List Nat)) (st : Utf8State),
    (decodedTexts st chunks).flatten = (utf8FeedChunk st chunks.flatten).2
  | [], st => by simp [decodedTexts, utf8FeedChunk]
  | c :: cs, st => by
    simp only [decodedTexts, List.flatten_cons]
    rw [decodedTexts_flatten cs]
    simp only [utf8FeedChunk_append c cs.flatten st]

theorem decodeAllState_flatten : ∀ (chunks : List (List Nat)) (st : Utf8State),
    decodeAllState st chunks = (utf8FeedChunk st chunks.flatten).1
  | [], st => by simp [decodeAllState, utf8FeedChunk]
  | c :: cs, st => by
    simp only [decodeAllState]
    rw [decodeAllState_flatten cs]
    simp only [List.flatten_cons]
    simp only [utf8FeedChunk_append c cs.flatten st]

/-- No chunk boundary of the decoded text stream separates a CR from an
immediately following LF. -/
def noCrlfSplit : List (List Char) → Prop
  | [] => True
  | t :: ts => ¬(t.getLast? = some '\r' ∧ ts.flatten.head? = some '\n') ∧ noCrlfSplit ts

theorem feedTexts_invariant : ∀ (ts : List (List Char)) (buf : List Char),
    noCrlfSplit ts → (scanBlocks buf).1 = [] →
    feedTexts buf ts =
      ((scanBlocks (buf ++ crlfNormalize ts.flatten)).2,
       (scanBlocks (buf ++ crlfNormalize ts.flatten)).1.map jsTrim)
  | [], buf => by
    intro _ hbuf
    have hres := scanBlocks_blocks_nil buf hbuf
    simp only [feedTexts, List.flatten_nil]
    rw [show crlfNormalize [] = [] from rfl]
    rw [List.append_nil, hres, hbuf]
    simp
  | t :: ts, buf => by
    intro h hbuf
    obtain ⟨h1, h2⟩ := h
    have hres1 : (scanBlocks ((scanBlocks (buf ++ crlfNormalize t)).2)).1 = [] := by
      rw [scanBlocks_residual]
    simp only [feedTexts]
    rw [feedTexts_invariant ts (scanBlocks (buf ++ crlfNormalize t)).2 h2 hres1]
    have hflat : (t :: ts).flatten = t ++ ts.flatten := rfl
    rw [hflat]
    have hnorm : crlfNormalize (t ++ ts.flatten) =
        crlfNormalize t ++ crlfNormalize ts.flatten := crlfNormalize_append t ts.flatten h1
    rw [hnorm, ← List.append_assoc]
    rw [scanBlocks_append (buf ++ crlfNormalize t) (crlfNormalize ts.flatten)]
    simp

theorem frameChunks_invariant_no_crlf_split (chunks : List (List Nat))
    (h : noCrlfSplit (decodedTexts Utf8State.start chunks)) :
    frameChunks chunks = frameChunks [chunks.flatten] := by
  simp only [frameChunks]
  rw [feedChunks_as_texts chunks FramerState.start,
    feedChunks_as_texts [chunks.flatten] FramerState.start]
  rw [show (FramerState.start).dec = Utf8State.start from rfl,
    show (FramerState.start).buffer = ([] : List Char) from rfl]
  rw [feedTexts_invariant (decodedTexts Utf8State.start chunks) [] h rfl]
  simp only [decodedTexts, decodeAllState, feedTexts]
  rw [decodedTexts_flatten, decodeAllState_flatten]
  simp [List.flatten]
